import Mathlib

/-! certexpchk: a verification development

A shallow embedding of `certexpchk.go` (a TLS certificate expiry checker) and
theorems about its certificate classifier, its certificate summary, its target
normalisation and the exit code and error-stream output of `main`.

Conventions of the embedding:

* A Go `time.Time` is an instant; `Before` and `After` compare instants, so a
  time is an `Int` (nanoseconds since the epoch) and the comparisons are `<`.
* A Go `string` is a Lean `String`.  The only byte the program looks for is the
  ASCII colon, which in UTF-8 occurs only as the character `:`.
* A slice built by `append` from `nil` is a `List` built by `++ [x]`.
* The counter `code` is a Go `int`; it is incremented once per target or per
  certificate received, so it stays far below `2^63` and is an `Int` here.
* The body of a probe goroutine is embedded as the sequence of its effects on
  the shared state (`probe`).  `main` starts one goroutine per target; the
  goroutines take their steps in an order the scheduler chooses, given as a
  parameter, a write to the error stream being one step and `code += 1` two, a
  read of `code` and a write of the value read plus one.
-/

namespace Certexpchk

/-! ## Data model -/

/-- An instant, as Go's `time.Time` compared by `Before`/`After`. -/
abbrev Time := Int

/-- The fields of `x509.Certificate` the program reads. -/
structure Certificate where
  NotBefore : Time
  NotAfter : Time
  Organization : List String
  CommonName : String
deriving DecidableEq, Repr

/-! ## `checkIfCertsExpired` (source lines 18-29) -/

/-- The condition of line 21: `now.Before(cert.NotAfter) && now.After(cert.NotBefore)`. -/
def inWindow (now : Time) (cert : Certificate) : Bool :=
  decide (now < cert.NotAfter) && decide (cert.NotBefore < now)

/-- The three named results of `checkIfCertsExpired`. -/
structure CheckResult where
  expired : Bool
  expiredCerts : List Certificate
  unexpiredCerts : List Certificate
deriving DecidableEq, Repr

/-- One iteration of the loop of lines 20-27. -/
def checkStep (now : Time) (r : CheckResult) (cert : Certificate) : CheckResult :=
  if inWindow now cert then
    { r with unexpiredCerts := r.unexpiredCerts ++ [cert] }
  else
    { r with expired := true, expiredCerts := r.expiredCerts ++ [cert] }

/-- The function `checkIfCertsExpired`, with the clock reading `now` of line 19 as a parameter:
the results start at their zero values and the loop runs over `certs` in order. -/
def checkIfCertsExpired (now : Time) (certs : List Certificate) : CheckResult :=
  certs.foldl (checkStep now) { expired := false, expiredCerts := [], unexpiredCerts := [] }

/-! ## `certSummary` (source lines 31-40) -/

/-- Go's `strings.Join(elems, sep)`: empty for no element, else the first element followed by
`sep` and the next element for each of the others. -/
def join : List String → String → String
  | [], _ => ""
  | e :: es, sep => es.foldl (fun b s => b ++ sep ++ s) e

/-- The function `certSummary`: `ret` starts empty, the guarded loop of lines 33-37 appends
`"O=" ++ o` per organization, line 38 appends `"CN=" ++ CommonName`, line 39 joins. -/
def certSummary (cert : Certificate) : String :=
  let ret : List String := []
  let ret :=
    if cert.Organization.length > 0 then
      cert.Organization.foldl (fun ret o => ret ++ ["O=" ++ o]) ret
    else ret
  let ret := ret ++ ["CN=" ++ cert.CommonName]
  join ret ", "

/-! ## The probe goroutine and `main` (source lines 57-104) -/

/-- Scan of `strings.LastIndex` for a one-character separator: `off` is the byte offset of the
next character, `acc` the offset of the last occurrence seen so far (`-1` for none). -/
def lastIndexFrom (sep : Char) : List Char → Nat → Int → Int
  | [], _, acc => acc
  | x :: xs, off, acc => lastIndexFrom sep xs (off + x.utf8Size) (if x = sep then (off : Int) else acc)

/-- Go's `strings.LastIndex(s, sep)` for a one-character `sep`: the byte offset of the last
occurrence of `sep` in `s`, or `-1`. -/
def lastIndex (s : String) (sep : Char) : Int :=
  lastIndexFrom sep s.data 0 (-1)

/-- Lines 66-68: the address that is dialled for the target `host`. -/
def dialAddress (host : String) : String :=
  if lastIndex host ':' = -1 then host ++ ":443" else host

/-- What `tls.DialWithDialer` returned for a target, and for a connection the certificates of
`conn.ConnectionState().PeerCertificates` with the clock reading taken when they are checked. -/
inductive DialResult where
  | err (msg : String)
  | conn (PeerCertificates : List Certificate) (now : Time)
deriving DecidableEq, Repr

/-- A command-line target together with its probe outcome. -/
structure Target where
  host : String
  dial : DialResult
deriving DecidableEq, Repr

/-- The effects of a probe on the state it shares with the other probes: a write to the error
stream, or the statement `code += 1`. -/
inductive Action where
  | write (s : String)
  | incr
deriving DecidableEq, Repr

/-- The body of the goroutine of lines 64-100, as the sequence of its effects.  `format` is
`Time.Format(YMD_HMS_FORMAT)` of the standard library. -/
def probe (isVerbose : Bool) (format : Time → String) (t : Target) : List Action :=
  let host := dialAddress t.host
  let start : List Action :=
    if isVerbose then [Action.write ("[" ++ host ++ "] getting and checking cert...\n")] else []
  match t.dial with
  | DialResult.err msg =>
    start ++ [Action.write ("[" ++ host ++ "] "), Action.write (msg ++ "\n"), Action.incr]
  | DialResult.conn certs now =>
    let r := checkIfCertsExpired now certs
    if r.expired then
      start ++ r.expiredCerts.flatMap (fun cert =>
        [Action.write ("[" ++ host ++ "] cert of " ++ certSummary cert ++ " has expired! (" ++
            format cert.NotBefore ++ " - " ++ format cert.NotAfter ++ ")\n"),
          Action.incr])
    else
      start ++ r.unexpiredCerts.flatMap (fun cert =>
        if isVerbose then
          [Action.write ("[" ++ host ++ "] cert of " ++ certSummary cert ++
            " has not yet expired.\n")]
        else [])

/-- The text a sequence of effects writes to the error stream. -/
def written : List Action → String
  | [] => ""
  | Action.write s :: rest => s ++ written rest
  | Action.incr :: rest => written rest

/-- The number of `code += 1` statements in a sequence of effects. -/
def incrCount : List Action → Nat
  | [] => 0
  | Action.write _ :: rest => incrCount rest
  | Action.incr :: rest => incrCount rest + 1

/-- The strings a sequence of effects writes to the error stream, one per write. -/
def writes : List Action → List String
  | [] => []
  | Action.write s :: rest => s :: writes rest
  | Action.incr :: rest => writes rest

/-! ## Execution of `main`: the goroutines interleaved

`code += 1` on the shared variable is a read of `code` followed by a write of the value read
plus one; nothing in the source makes the pair indivisible.  -/

/-- The indivisible steps of a goroutine. -/
inductive Micro where
  | write (s : String)
  | load
  | store
deriving DecidableEq, Repr

/-- The steps an effect is made of. -/
def Action.micro : Action → List Micro
  | Action.write s => [Micro.write s]
  | Action.incr => [Micro.load, Micro.store]

/-- A goroutine: the steps it still has to take and the value it last read from `code`. -/
structure Thread where
  todo : List Micro
  reg : Int
deriving DecidableEq, Repr

/-- The shared state and the goroutines. -/
structure Machine where
  stderr : String
  code : Int
  threads : List Thread
deriving DecidableEq, Repr

/-- The loop of lines 62-101: one goroutine per target, `code = 0`. -/
def spawn (isVerbose : Bool) (format : Time → String) (targets : List Target) : Machine :=
  { stderr := "", code := 0,
    threads := targets.map (fun t =>
      { todo := (probe isVerbose format t).flatMap Action.micro, reg := 0 }) }

/-- Goroutine `i` takes its next step (nothing happens when it has none). -/
def stepThread (m : Machine) (i : Nat) : Machine :=
  match m.threads.get? i with
  | none => m
  | some th =>
    match th.todo with
    | [] => m
    | Micro.write s :: rest =>
      { m with stderr := m.stderr ++ s, threads := m.threads.set i { th with todo := rest } }
    | Micro.load :: rest =>
      { m with threads := m.threads.set i { todo := rest, reg := m.code } }
    | Micro.store :: rest =>
      { m with code := th.reg + 1, threads := m.threads.set i { th with todo := rest } }

/-- The machine after the goroutines have taken steps in the order `schedule` names them. -/
def runSchedule (m : Machine) (schedule : List Nat) : Machine :=
  schedule.foldl stepThread m

/-- Every goroutine has finished, so `wg.Wait()` returns. -/
def allDone (m : Machine) : Bool :=
  m.threads.all (fun th => th.todo.isEmpty)

/-- The function `main` under the scheduler's choices `schedule`: the goroutines are started
and take their steps; once all are done `wg.Wait()` returns and `code` is passed to
`os.Exit`; as long as one is not, `main` is still waiting (`none`). -/
def main (isVerbose : Bool) (format : Time → String) (targets : List Target)
    (schedule : List Nat) : Option Int :=
  if allDone (runSchedule (spawn isVerbose format targets) schedule) then
    some (runSchedule (spawn isVerbose format targets) schedule).code
  else none

/-- The error stream after the goroutines have taken the steps of `schedule`. -/
def stderrOf (isVerbose : Bool) (format : Time → String) (targets : List Target)
    (schedule : List Nat) : String :=
  (runSchedule (spawn isVerbose format targets) schedule).stderr

/-- What the next step of goroutine `i` writes to the error stream, with the goroutine's
number: one entry for a write, none for any other step. -/
def logStep (m : Machine) (i : Nat) : List (Nat × String) :=
  match m.threads.get? i with
  | none => []
  | some th =>
    match th.todo with
    | Micro.write s :: _ => [(i, s)]
    | _ => []

/-- The writes to the error stream made along `schedule`, in the order they are made, each
with the number of the goroutine that makes it. -/
def log : Machine → List Nat → List (Nat × String)
  | _, [] => []
  | m, i :: rest => logStep m i ++ log (stepThread m i) rest

/-- The strings a goroutine still has to write. -/
def texts : List Micro → List String
  | [] => []
  | Micro.write s :: rest => s :: texts rest
  | Micro.load :: rest => texts rest
  | Micro.store :: rest => texts rest

/-- The line breaks a goroutine still has to write. -/
def breaks : List Micro → Nat
  | [] => 0
  | Micro.write s :: rest => s.data.count '\n' + breaks rest
  | Micro.load :: rest => breaks rest
  | Micro.store :: rest => breaks rest

/-- The steps goroutine `i` still has to take (none when there is no goroutine `i`). -/
def todoOf (m : Machine) (i : Nat) : List Micro :=
  match m.threads.get? i with
  | some th => th.todo
  | none => []

/-- The line breaks the goroutines still have to write. -/
def breaksLeft (threads : List Thread) : Nat :=
  (threads.map (fun th => breaks th.todo)).sum

/-- The concatenation of a list of strings. -/
def concatAll : List String → String
  | [] => ""
  | s :: rest => s ++ concatAll rest

/-- The schedule that runs the goroutines one after the other, the first of them being
goroutine `i`: each is named once per step it has to take. -/
def serialFrom (i : Nat) : List (List Action) → List Nat
  | [] => []
  | acts :: rest =>
    List.replicate (acts.flatMap Action.micro).length i ++ serialFrom (i + 1) rest

/-- The schedule that runs the goroutine of each target to its end before the next starts. -/
def serial (isVerbose : Bool) (format : Time → String) (targets : List Target) : List Nat :=
  serialFrom 0 (targets.map (probe isVerbose format))

/-! ## Notions of the specification -/

/-- The contribution of a target to the aggregate result in the specification's words: 1 if
the connection failed, else the number of certificates of the chain outside their window. -/
def problemCount (t : Target) : Nat :=
  match t.dial with
  | DialResult.err _ => 1
  | DialResult.conn certs now =>
    certs.countP (fun c => decide (¬ (c.NotBefore < now ∧ now < c.NotAfter)))

/-- The number of targets whose connection failed. -/
def connectFailures (targets : List Target) : Nat :=
  targets.countP (fun t => match t.dial with
    | DialResult.err _ => true
    | DialResult.conn _ _ => false)

/-- The number of certificates, over all retrieved chains, outside their validity window. -/
def expiredTotal (targets : List Target) : Nat :=
  (targets.map (fun t => match t.dial with
    | DialResult.err _ => 0
    | DialResult.conn certs now =>
      certs.countP (fun c => decide (¬ (c.NotBefore < now ∧ now < c.NotAfter))))).sum

/-- The text of a sequence of lines, each ended by a line break. -/
def concatLines : List String → String
  | [] => ""
  | l :: ls => l ++ "\n" ++ concatLines ls

/-- The number of lines of a text: the number of its line breaks. -/
def lineCount (s : String) : Nat :=
  s.data.count '\n'

/-- A string without a line break. -/
def oneLine (s : String) : Prop :=
  '\n' ∉ s.data

/-- No line break in what the probe of a target reports: for a failed connection in the
target and the error description, for a retrieved chain in the target and the subject fields
of each certificate outside its window. -/
def cleanTarget (t : Target) : Prop :=
  match t.dial with
  | DialResult.err msg => oneLine t.host ∧ oneLine msg
  | DialResult.conn certs now =>
    ∀ c ∈ certs, ¬ (c.NotBefore < now ∧ now < c.NotAfter) →
      oneLine t.host ∧ oneLine c.CommonName ∧ ∀ o ∈ c.Organization, oneLine o

/-- The lines a probe reports with verbose off, without their line breaks: the bracketed
address and the error for a failed connection, else one line per certificate outside its
window. -/
def reportLines (format : Time → String) (t : Target) : List String :=
  match t.dial with
  | DialResult.err msg => ["[" ++ dialAddress t.host ++ "] " ++ msg]
  | DialResult.conn certs now =>
    (certs.filter (fun c => !inWindow now c)).map (fun cert =>
      "[" ++ dialAddress t.host ++ "] cert of " ++ certSummary cert ++ " has expired! (" ++
        format cert.NotBefore ++ " - " ++ format cert.NotAfter ++ ")")

/-- A stand-in for `Time.Format(YMD_HMS_FORMAT)` in examples: the decimal instant. -/
def stamp (t : Time) : String :=
  toString t

/-- Scenario of the specification: A connects with one valid certificate, B fails to connect,
C connects with two certificates of which one is expired (all checked at instant 50). -/
def scenario : List Target :=
  [ { host := "a.test", dial := DialResult.conn [⟨0, 100, [], "a.test"⟩] 50 },
    { host := "b.test", dial := DialResult.err "connection refused" },
    { host := "c.test:8443",
      dial := DialResult.conn [⟨0, 100, ["Acme"], "c.test"⟩, ⟨0, 10, [], "old.test"⟩] 50 } ]

/-! ## Inputs of the examples -/

/-- Two targets whose connections both fail. -/
def twoFailures : List Target :=
  [ { host := "a.test", dial := DialResult.err "i/o timeout" },
    { host := "b.test", dial := DialResult.err "connection refused" } ]

/-- Two targets that connect, each presenting one certificate that expired at instant 10,
checked at instant 50. -/
def twoExpired : List Target :=
  [ { host := "a.test", dial := DialResult.conn [⟨0, 10, [], "a.test"⟩] 50 },
    { host := "b.test", dial := DialResult.conn [⟨0, 10, [], "b.test"⟩] 50 } ]

/-- For `scenario`: the second and the third goroutine both read `code` before either writes
it back. -/
def scenarioOverlapped : List Nat := [1, 1, 1, 2, 2, 1, 2]

/-- For `twoExpired`: both goroutines report, then both read `code`, then both write it. -/
def expiredOverlapped : List Nat := [0, 1, 0, 1, 0, 1]

/-- For `scenario`: the goroutine of the failing target writes its address, the goroutine of
the third target writes its whole line, then the error description follows. -/
def scenarioMixed : List Nat := [1, 2, 1, 1, 2, 1, 2]

/-- Both goroutines read `code` before either writes it back. -/
def overlapped : List Nat := [0, 0, 0, 1, 1, 1, 0, 1]

/-- A target that connects and presents one expired certificate whose common name holds a
line break. -/
def brokenName : List Target :=
  [ { host := "h.test", dial := DialResult.conn [⟨0, 10, [], "a\nb"⟩] 50 } ]

/-! ## Lemmas on the classifier -/

theorem checkStep_foldl (now : Time) (certs : List Certificate) (r : CheckResult) :
    certs.foldl (checkStep now) r =
      { expired := r.expired || (certs.filter (fun c => !inWindow now c)).length != 0,
        expiredCerts := r.expiredCerts ++ certs.filter (fun c => !inWindow now c),
        unexpiredCerts := r.unexpiredCerts ++ certs.filter (fun c => inWindow now c) } := by
  induction certs generalizing r with
  | nil => cases r; simp
  | cons c cs ih =>
    rw [List.foldl_cons, ih]
    by_cases h : inWindow now c = true
    · simp [checkStep, h]
    · simp only [Bool.not_eq_true] at h
      simp [checkStep, h]

theorem checkIfCertsExpired_eq (now : Time) (certs : List Certificate) :
    checkIfCertsExpired now certs =
      { expired := (certs.filter (fun c => !inWindow now c)).length != 0,
        expiredCerts := certs.filter (fun c => !inWindow now c),
        unexpiredCerts := certs.filter (fun c => inWindow now c) } := by
  unfold checkIfCertsExpired
  rw [checkStep_foldl]
  simp

theorem inWindow_iff (now : Time) (c : Certificate) :
    inWindow now c = true ↔ c.NotBefore < now ∧ now < c.NotAfter := by
  unfold inWindow
  simp only [Bool.and_eq_true, decide_eq_true_eq]
  exact And.comm

theorem not_inWindow_eq (now : Time) :
    (fun c : Certificate => !inWindow now c) =
      (fun c => decide (¬ (c.NotBefore < now ∧ now < c.NotAfter))) := by
  funext c
  have := inWindow_iff now c
  by_cases h : c.NotBefore < now ∧ now < c.NotAfter
  · simp [h, this.mpr h]
  · have hf : inWindow now c = false := by
      cases hw : inWindow now c
      · rfl
      · exact absurd (this.mp hw) h
    simp only [hf, Bool.not_false]
    exact (decide_eq_true (p := ¬ (c.NotBefore < now ∧ now < c.NotAfter)) h).symm

/-! ## Claims on the classifier -/

/-- C1: a certificate of the input is put in `unexpiredCerts` exactly when
`NotBefore < now < NotAfter` (both strict) and in `expiredCerts` exactly when not; at
`now = NotBefore` or `now = NotAfter` it is in `expiredCerts` and not in `unexpiredCerts`. -/
theorem C1_strict_window (now : Time) (certs : List Certificate) (c : Certificate)
    (hc : c ∈ certs) :
    (c ∈ (checkIfCertsExpired now certs).unexpiredCerts ↔ c.NotBefore < now ∧ now < c.NotAfter) ∧
    (c ∈ (checkIfCertsExpired now certs).expiredCerts ↔ ¬ (c.NotBefore < now ∧ now < c.NotAfter)) ∧
    (now = c.NotBefore ∨ now = c.NotAfter →
      c ∈ (checkIfCertsExpired now certs).expiredCerts ∧
      c ∉ (checkIfCertsExpired now certs).unexpiredCerts) := by
  rw [checkIfCertsExpired_eq]
  have hu : c ∈ certs.filter (fun c => inWindow now c) ↔ c.NotBefore < now ∧ now < c.NotAfter := by
    simp [List.mem_filter, hc, inWindow_iff]
  have he : c ∈ certs.filter (fun c => !inWindow now c) ↔
      ¬ (c.NotBefore < now ∧ now < c.NotAfter) := by
    rw [← inWindow_iff]
    simp [List.mem_filter, hc]
  refine ⟨hu, he, ?_⟩
  intro hb
  simp only [hu, he]
  have : ¬ (c.NotBefore < now ∧ now < c.NotAfter) := by
    rintro ⟨h1, h2⟩
    rcases hb with h | h
    · rw [h] at h1; exact lt_irrefl _ h1
    · rw [h] at h2; exact lt_irrefl _ h2
  exact ⟨this, this⟩

/-- A chain with one certificate checked exactly at its `NotBefore`. -/
theorem C1_strict_window_witness :
    (⟨5, 9, [], "edge.test"⟩ : Certificate) ∈
        (checkIfCertsExpired 5 [⟨5, 9, [], "edge.test"⟩]).expiredCerts ∧
      (⟨5, 9, [], "edge.test"⟩ : Certificate) ∉
        (checkIfCertsExpired 5 [⟨5, 9, [], "edge.test"⟩]).unexpiredCerts :=
  (C1_strict_window 5 [⟨5, 9, [], "edge.test"⟩] ⟨5, 9, [], "edge.test"⟩
    (List.mem_singleton.mpr rfl)).2.2 (Or.inl rfl)

/-- C2: the returned `expired` flag is true exactly when `expiredCerts` is non-empty, which
is exactly when some input certificate is outside its validity window. -/
theorem C2_expired_flag (now : Time) (certs : List Certificate) :
    ((checkIfCertsExpired now certs).expired = true ↔
      (checkIfCertsExpired now certs).expiredCerts ≠ []) ∧
    ((checkIfCertsExpired now certs).expiredCerts ≠ [] ↔
      ∃ c ∈ certs, ¬ (c.NotBefore < now ∧ now < c.NotAfter)) := by
  rw [checkIfCertsExpired_eq]
  constructor
  · simp
  · simp only [ne_eq, List.filter_eq_nil_iff, not_forall, ← inWindow_iff]
    constructor
    · rintro ⟨c, hc, h⟩
      exact ⟨c, hc, by simpa using h⟩
    · rintro ⟨c, hc, h⟩
      exact ⟨c, hc, by simpa using h⟩

/-- C3: `expiredCerts` is the input filtered to the certificates outside their window and
`unexpiredCerts` the input filtered to those inside it, both in input order; together the two
outputs hold exactly the input's entries (nothing added, dropped or duplicated), and the two
lengths add up to the input's. -/
theorem C3_partition (now : Time) (certs : List Certificate) :
    (checkIfCertsExpired now certs).expiredCerts =
        certs.filter (fun c => decide (¬ (c.NotBefore < now ∧ now < c.NotAfter))) ∧
    (checkIfCertsExpired now certs).unexpiredCerts =
        certs.filter (fun c => decide (c.NotBefore < now ∧ now < c.NotAfter)) ∧
    ((checkIfCertsExpired now certs).unexpiredCerts ++
        (checkIfCertsExpired now certs).expiredCerts).Perm certs ∧
    (checkIfCertsExpired now certs).expiredCerts.length +
        (checkIfCertsExpired now certs).unexpiredCerts.length = certs.length := by
  have h1 := not_inWindow_eq now
  have h2 : (fun c : Certificate => inWindow now c) =
      (fun c => decide (c.NotBefore < now ∧ now < c.NotAfter)) := by
    funext c
    rw [Bool.eq_iff_iff]
    simp [inWindow_iff]
  have hp : (certs.filter (fun c => inWindow now c) ++
      certs.filter (fun c => !inWindow now c)).Perm certs :=
    List.filter_append_perm _ certs
  rw [checkIfCertsExpired_eq]
  simp only
  refine ⟨by rw [h1], by rw [h2], hp, ?_⟩
  have := hp.length_eq
  rw [List.length_append] at this
  omega

/-! ## Lemmas on `certSummary` -/

theorem foldl_sep_append (sep x acc : String) (l : List String) :
    l.foldl (fun b s => b ++ sep ++ s) (x ++ acc) =
      x ++ l.foldl (fun b s => b ++ sep ++ s) acc := by
  induction l generalizing acc with
  | nil => rfl
  | cons a as ih =>
    simp only [List.foldl_cons]
    rw [String.append_assoc x acc sep, String.append_assoc x (acc ++ sep) a, ih]

theorem join_cons_cons (sep x y : String) (l : List String) :
    join (x :: y :: l) sep = x ++ sep ++ join (y :: l) sep := by
  simp only [join, List.foldl_cons]
  rw [String.append_assoc x sep y, foldl_sep_append, foldl_sep_append, String.append_assoc]

theorem join_eq_intercalate (sep : String) (l : List String) :
    join l sep = sep.intercalate l := by
  cases l with
  | nil => rfl
  | cons e es =>
    simp only [join, String.intercalate]
    induction es generalizing e with
    | nil => rfl
    | cons a as ih =>
      simp only [List.foldl_cons, String.intercalate.go]
      exact ih (e ++ sep ++ a)

theorem foldl_org (orgs : List String) (init : List String) :
    orgs.foldl (fun ret o => ret ++ ["O=" ++ o]) init =
      init ++ orgs.map (fun o => "O=" ++ o) := by
  induction orgs generalizing init with
  | nil => simp
  | cons o os ih => simp [ih]

theorem certSummary_eq (cert : Certificate) :
    certSummary cert =
      join (cert.Organization.map (fun o => "O=" ++ o) ++ ["CN=" ++ cert.CommonName]) ", " := by
  unfold certSummary
  simp only [foldl_org, List.nil_append]
  cases h : cert.Organization with
  | nil => simp
  | cons o os => simp

/-! ## Lemmas on the target normalisation -/

theorem lastIndexFrom_eq_neg_one (sep : Char) (xs : List Char) (off : Nat) (acc : Int) :
    lastIndexFrom sep xs off acc = -1 ↔ acc = -1 ∧ sep ∉ xs := by
  induction xs generalizing off acc with
  | nil => simp [lastIndexFrom]
  | cons x xs ih =>
    simp only [lastIndexFrom, ih, List.mem_cons, not_or]
    by_cases h : x = sep
    · subst h
      simp only [if_true, not_true_eq_false, false_and, and_false, iff_false, not_and]
      intro h0
      omega
    · have h2 : ¬ sep = x := fun e => h e.symm
      simp [h, h2]

theorem lastIndex_eq_neg_one (s : String) (sep : Char) :
    lastIndex s sep = -1 ↔ sep ∉ s.data := by
  unfold lastIndex
  rw [lastIndexFrom_eq_neg_one]
  simp

/-! ## Claims on the summary and the normalisation -/

/-- C6: a target without a colon is dialled as the target followed by `:443`, a target with
at least one colon is dialled unchanged; so `example.com` becomes `example.com:443`, and
`example.com:8443` and `[::1]:443` stay as they are. -/
theorem C6_dial_address (host : String) :
    (':' ∉ host.data → dialAddress host = host ++ ":443") ∧
    (':' ∈ host.data → dialAddress host = host) ∧
    dialAddress "example.com" = "example.com:443" ∧
    dialAddress "example.com:8443" = "example.com:8443" ∧
    dialAddress "[::1]:443" = "[::1]:443" := by
  refine ⟨?_, ?_, by decide, by decide, by decide⟩
  · intro h
    unfold dialAddress
    rw [if_pos ((lastIndex_eq_neg_one host ':').mpr h)]
  · intro h
    unfold dialAddress
    rw [if_neg (fun e => (lastIndex_eq_neg_one host ':').mp e h)]

/-- The bare host name `example.com` gets the default port. -/
theorem C6_dial_address_witness :
    ':' ∉ "example.com".data ∧ dialAddress "example.com" = "example.com" ++ ":443" :=
  ⟨by decide, (C6_dial_address "example.com").1 (by decide)⟩

/-- C7: the summary is `O=o1`, ..., `O=on`, `CN=cn` joined by a comma and a blank, in that
order: it is `CN=cn` alone without organization, and with a first organization `o` it is
`O=o`, the separator, and the summary for the remaining organizations. -/
theorem C7_cert_summary (cert : Certificate) :
    certSummary cert = ", ".intercalate
        (cert.Organization.map (fun o => "O=" ++ o) ++ ["CN=" ++ cert.CommonName]) ∧
    certSummary { cert with Organization := [] } = "CN=" ++ cert.CommonName ∧
    (∀ o : String, certSummary { cert with Organization := o :: cert.Organization } =
        "O=" ++ o ++ ", " ++ certSummary cert) ∧
    certSummary ⟨cert.NotBefore, cert.NotAfter, ["Acme", "Acme Labs"], "acme.test"⟩ =
        "O=Acme, O=Acme Labs, CN=acme.test" ∧
    certSummary ⟨cert.NotBefore, cert.NotAfter, [], "bare.test"⟩ = "CN=bare.test" := by
  refine ⟨?_, ?_, ?_, by rfl, by rfl⟩
  · rw [certSummary_eq, join_eq_intercalate]
  · rw [certSummary_eq]
    rfl
  · intro o
    rw [certSummary_eq, certSummary_eq]
    cases h : cert.Organization with
    | nil => simp only [List.map_cons, List.map_nil, List.cons_append, List.nil_append,
        join_cons_cons]
    | cons p ps => simp only [List.map_cons, List.cons_append, join_cons_cons]

/-! ## Lemmas on the exit code -/

theorem written_append (a b : List Action) : written (a ++ b) = written a ++ written b := by
  induction a with
  | nil => simp [written]
  | cons x xs ih =>
    cases x with
    | write s => simp [written, ih, String.append_assoc]
    | incr => simp [written, ih]

theorem incrCount_append (a b : List Action) :
    incrCount (a ++ b) = incrCount a + incrCount b := by
  induction a with
  | nil => simp [incrCount]
  | cons x xs ih =>
    cases x with
    | write s => simp [incrCount, ih]
    | incr => simp [incrCount, ih]; omega

theorem incrCount_start (isVerbose : Bool) (line : String) :
    incrCount (if isVerbose = true then [Action.write line] else []) = 0 := by
  cases isVerbose <;> simp [incrCount]

theorem incrCount_expired_loop (g : Certificate → String) (certs : List Certificate) :
    incrCount (certs.flatMap (fun cert => [Action.write (g cert), Action.incr])) =
      certs.length := by
  induction certs with
  | nil => rfl
  | cons c cs ih =>
    rw [List.flatMap_cons, incrCount_append, ih]
    simp only [incrCount, List.length_cons]
    omega

theorem incrCount_unexpired_loop (isVerbose : Bool) (g : Certificate → String)
    (certs : List Certificate) :
    incrCount (certs.flatMap (fun cert =>
      if isVerbose = true then [Action.write (g cert)] else [])) = 0 := by
  induction certs with
  | nil => rfl
  | cons c cs ih =>
    rw [List.flatMap_cons, incrCount_append, ih]
    cases isVerbose <;> simp [incrCount]

theorem incrCount_probe (isVerbose : Bool) (format : Time → String) (t : Target) :
    incrCount (probe isVerbose format t) = problemCount t := by
  unfold probe problemCount
  cases hd : t.dial with
  | err msg =>
    simp only [incrCount_append, incrCount_start, incrCount]
  | conn certs now =>
    simp only [checkIfCertsExpired_eq, ← not_inWindow_eq, List.countP_eq_length_filter]
    by_cases h : (certs.filter (fun c => !inWindow now c)).length = 0
    · simp [h, incrCount_append, incrCount_start, incrCount_unexpired_loop]
    · simp [h, incrCount_append, incrCount_start, incrCount_expired_loop]

theorem problemCount_split (t : Target) :
    problemCount t = connectFailures [t] + expiredTotal [t] := by
  obtain ⟨host, dial⟩ := t
  cases dial <;> simp [problemCount, connectFailures, expiredTotal]

theorem sum_problemCount (targets : List Target) :
    (targets.map problemCount).sum = connectFailures targets + expiredTotal targets := by
  induction targets with
  | nil => rfl
  | cons t ts ih =>
    have h := problemCount_split t
    simp only [List.map_cons, List.sum_cons, ih, h]
    simp only [connectFailures, expiredTotal, List.countP_cons, List.countP_nil,
      List.map_cons, List.map_nil, List.sum_cons, List.sum_nil]
    omega

/-! ## Lemmas on the interleaved executions -/

theorem runSchedule_append (m : Machine) (a b : List Nat) :
    runSchedule m (a ++ b) = runSchedule (runSchedule m a) b := by
  unfold runSchedule
  rw [List.foldl_append]

theorem runSchedule_cons (m : Machine) (i : Nat) (rest : List Nat) :
    runSchedule m (i :: rest) = runSchedule (stepThread m i) rest := rfl

theorem set_of_get (l : List Thread) (i : Nat) (th : Thread) (h : l.get? i = some th) :
    l.set i th = l := by
  induction l generalizing i with
  | nil => rfl
  | cons x xs ih =>
    cases i with
    | zero =>
      simp only [List.get?_cons_zero, Option.some.injEq] at h
      rw [List.set_cons_zero, h]
    | succ k =>
      simp only [List.get?_cons_succ] at h
      rw [List.set_cons_succ, ih k h]

theorem get_set_same (l : List Thread) (i : Nat) (th x : Thread) (h : l.get? i = some th) :
    (l.set i x).get? i = some x := by
  induction l generalizing i with
  | nil => simp at h
  | cons y ys ih =>
    cases i with
    | zero => rfl
    | succ k =>
      simp only [List.get?_cons_succ] at h
      rw [List.set_cons_succ, List.get?_cons_succ, ih k h]

theorem run_thread (acts : List Action) (m : Machine) (i : Nat) (r : Int)
    (h : m.threads.get? i = some { todo := acts.flatMap Action.micro, reg := r }) :
    ∃ r2, runSchedule m (List.replicate (acts.flatMap Action.micro).length i) =
      { stderr := m.stderr ++ written acts, code := m.code + (incrCount acts : Nat),
        threads := m.threads.set i { todo := [], reg := r2 } } := by
  induction acts generalizing m r with
  | nil =>
    refine ⟨r, ?_⟩
    obtain ⟨e, c, ths⟩ := m
    simp only [List.flatMap_nil] at h
    simp only [List.flatMap_nil, List.length_nil, List.replicate_zero, runSchedule,
      List.foldl_nil, written, incrCount, String.append_empty, Nat.cast_zero, add_zero,
      set_of_get ths i _ h]
  | cons a rest ih =>
    obtain ⟨e, c, ths⟩ := m
    cases a with
    | write s =>
      simp only [List.flatMap_cons, Action.micro, List.singleton_append] at h
      have hstep : stepThread ⟨e, c, ths⟩ i =
          ⟨e ++ s, c, ths.set i { todo := rest.flatMap Action.micro, reg := r }⟩ := by
        simp only [stepThread, h]
      obtain ⟨r2, hr⟩ := ih ⟨e ++ s, c, ths.set i { todo := rest.flatMap Action.micro, reg := r }⟩
        r (get_set_same ths i _ _ h)
      refine ⟨r2, ?_⟩
      simp only [List.flatMap_cons, Action.micro, List.singleton_append, List.length_cons,
        List.replicate_succ, runSchedule_cons, hstep, hr, List.set_set, written, incrCount,
        String.append_assoc]
    | incr =>
      simp only [List.flatMap_cons, Action.micro, List.cons_append, List.nil_append] at h
      have hstep1 : stepThread ⟨e, c, ths⟩ i =
          ⟨e, c, ths.set i { todo := Micro.store :: rest.flatMap Action.micro, reg := c }⟩ := by
        simp only [stepThread, h]
      have hstep2 : stepThread
          ⟨e, c, ths.set i { todo := Micro.store :: rest.flatMap Action.micro, reg := c }⟩ i =
          ⟨e, c + 1, ths.set i { todo := rest.flatMap Action.micro, reg := c }⟩ := by
        simp only [stepThread, get_set_same ths i _ _ h, List.set_set]
      obtain ⟨r2, hr⟩ := ih ⟨e, c + 1, ths.set i { todo := rest.flatMap Action.micro, reg := c }⟩
        c (get_set_same ths i _ _ h)
      refine ⟨r2, ?_⟩
      simp only [List.flatMap_cons, Action.micro, List.cons_append, List.nil_append,
        List.length_cons, List.replicate_succ, runSchedule_cons, hstep1, hstep2, hr,
        List.set_set, written, incrCount, Machine.mk.injEq, true_and, and_true]
      push_cast
      omega

theorem run_serial (actss : List (List Action)) (done : List Thread) (m : Machine)
    (hm : m.threads = done ++ actss.map (fun a => { todo := a.flatMap Action.micro, reg := 0 }))
    (hdone : ∀ th ∈ done, th.todo = []) :
    (runSchedule m (serialFrom done.length actss)).stderr = m.stderr ++ written actss.flatten ∧
    (runSchedule m (serialFrom done.length actss)).code =
      m.code + (incrCount actss.flatten : Nat) ∧
    allDone (runSchedule m (serialFrom done.length actss)) = true := by
  induction actss generalizing done m with
  | nil =>
    simp only [serialFrom, runSchedule, List.foldl_nil, List.flatten_nil, written, incrCount,
      String.append_empty, Nat.cast_zero, add_zero, true_and]
    simp only [List.map_nil, List.append_nil] at hm
    simp only [allDone, hm, List.all_eq_true, List.isEmpty_iff]
    exact hdone
  | cons a rest ih =>
    have hget : m.threads.get? done.length =
        some { todo := a.flatMap Action.micro, reg := 0 } := by
      rw [hm, List.get?_eq_getElem?, List.getElem?_append_right (le_refl _)]
      simp
    obtain ⟨r2, hr⟩ := run_thread a m done.length 0 hget
    have hthreads : m.threads.set done.length { todo := [], reg := r2 } =
        (done ++ [{ todo := [], reg := r2 }]) ++
          rest.map (fun a => { todo := a.flatMap Action.micro, reg := 0 }) := by
      rw [hm]
      simp
    have hd2 : ∀ th ∈ done ++ [({ todo := [], reg := r2 } : Thread)], th.todo = [] := by
      intro th hth
      rw [List.mem_append, List.mem_singleton] at hth
      rcases hth with h | rfl
      · exact hdone th h
      · rfl
    have := ih (done ++ [{ todo := [], reg := r2 }])
      { stderr := m.stderr ++ written a, code := m.code + (incrCount a : Nat),
        threads := m.threads.set done.length { todo := [], reg := r2 } } hthreads hd2
    simp only [List.length_append, List.length_singleton] at this
    simp only [serialFrom, runSchedule_append, hr, this, List.flatten_cons, written_append,
      incrCount_append, String.append_assoc, true_and, and_true]
    push_cast
    omega

/-! ## Claims on the exit code -/

theorem incrCount_probes (isVerbose : Bool) (format : Time → String) (targets : List Target) :
    incrCount (targets.map (probe isVerbose format)).flatten =
      (targets.map problemCount).sum := by
  induction targets with
  | nil => rfl
  | cons t ts ih =>
    simp only [List.map_cons, List.flatten_cons, incrCount_append, incrCount_probe,
      List.sum_cons, ih]

/-- Run one after the other, the goroutines all finish and `main` passes the number of
problems to `os.Exit`. -/
theorem main_serial (isVerbose : Bool) (format : Time → String) (targets : List Target) :
    main isVerbose format targets (serial isVerbose format targets) =
      some (((targets.map problemCount).sum : Nat) : Int) := by
  have h := run_serial (targets.map (probe isVerbose format)) [] (spawn isVerbose format targets)
    (by simp [spawn]) (by simp)
  simp only [List.length_nil] at h
  obtain ⟨_, hc, hd⟩ := h
  unfold main serial
  rw [if_pos hd, hc]
  rw [incrCount_probes]
  simp [spawn]

/-- C4: the exit code is not always the sum of the problem counts.  In the scenario of the
specification (one failed connection, one expired certificate, sum 2) the goroutines of the
second and the third target can both read `code = 0` before either writes it back; all
goroutines finish and `main` passes 1 to `os.Exit`.  Run one after the other they give 2. -/
theorem C4_exit_code_below_sum :
    (scenario.map problemCount).sum = 2 ∧
    main false stamp scenario scenarioOverlapped = some 1 ∧
    main false stamp scenario (serial false stamp scenario) = some 2 := by
  decide

/-- C5: the exit code is not always the number of failed connections plus the number of
expired certificates.  Two targets connect and present one expired certificate each (0
failures, 2 expired certificates); with both goroutines reading `code = 0` before either
writes it back, all goroutines finish and `main` passes 1 to `os.Exit`. -/
theorem C5_exit_code_below_count :
    connectFailures twoExpired = 0 ∧
    expiredTotal twoExpired = 2 ∧
    main false stamp twoExpired expiredOverlapped = some 1 ∧
    main false stamp twoExpired (serial false stamp twoExpired) = some 2 := by
  decide

/-- C8: the exit code depends on the order in which the goroutines take their steps.  For
the same two failing targets, two schedules that both let every goroutine finish end with
exit codes 2 and 1; the same holds with the targets given in the other order. -/
theorem C8_order_dependent :
    main false stamp twoFailures [0, 0, 0, 0, 1, 1, 1, 1] = some 2 ∧
    main false stamp twoFailures [0, 1, 0, 1, 0, 1, 0, 1] = some 1 ∧
    twoFailures.Perm twoFailures.reverse ∧
    main false stamp twoFailures.reverse [1, 1, 1, 1, 0, 0, 0, 0] = some 2 ∧
    main false stamp twoFailures.reverse [1, 0, 1, 0, 1, 0, 1, 0] = some 1 := by
  refine ⟨by decide, by decide, (List.reverse_perm twoFailures).symm, by decide, by decide⟩

/-- C9: the increments of `code` are not serialized.  With two failing targets, the schedule
in which both goroutines read `code` before either writes it back ends with every goroutine
done and `code = 1`, one increment lost, where running them one after the other ends with
`code = 2`, the number of increments performed. -/
theorem C9_lost_increment :
    allDone (runSchedule (spawn false stamp twoFailures) overlapped) = true ∧
    (runSchedule (spawn false stamp twoFailures) overlapped).code = 1 ∧
    serial false stamp twoFailures = [0, 0, 0, 0, 1, 1, 1, 1] ∧
    allDone (runSchedule (spawn false stamp twoFailures)
      (serial false stamp twoFailures)) = true ∧
    (runSchedule (spawn false stamp twoFailures) (serial false stamp twoFailures)).code = 2 ∧
    incrCount (twoFailures.flatMap (probe false stamp)) = 2 ∧
    main false stamp twoFailures overlapped = some 1 ∧
    main false stamp twoFailures (serial false stamp twoFailures) = some 2 := by
  decide

/-! ## Lemmas on the error stream -/

theorem digitChar_oneLine (n : Nat) : Nat.digitChar (n % 10) ≠ '\n' := by
  have h := Nat.mod_lt n (show 0 < 10 by decide)
  generalize n % 10 = r at h ⊢
  interval_cases r <;> decide

theorem toDigitsCore_oneLine (fuel n : Nat) (acc : List Char) (h : '\n' ∉ acc) :
    '\n' ∉ Nat.toDigitsCore 10 fuel n acc := by
  induction fuel generalizing n acc with
  | zero => simpa [Nat.toDigitsCore] using h
  | succ f ih =>
    unfold Nat.toDigitsCore
    simp only
    have hc : '\n' ∉ Nat.digitChar (n % 10) :: acc := by
      simp only [List.mem_cons, not_or]
      exact ⟨fun e => digitChar_oneLine _ e.symm, h⟩
    split
    · exact hc
    · exact ih _ _ hc

theorem natRepr_oneLine (n : Nat) : '\n' ∉ (Nat.repr n).data := by
  unfold Nat.repr Nat.toDigits
  simp only [List.asString]
  exact toDigitsCore_oneLine _ _ _ (by simp)

theorem stamp_oneLine (t : Time) : oneLine (stamp t) := by
  unfold oneLine stamp
  cases t with
  | ofNat m => exact natRepr_oneLine m
  | negSucc m =>
    show '\n' ∉ ("-" ++ Nat.repr (Nat.succ m)).data
    rw [String.data_append]
    simp only [List.mem_append, not_or]
    exact ⟨by decide, natRepr_oneLine _⟩

theorem oneLine_append (a b : String) : oneLine (a ++ b) ↔ oneLine a ∧ oneLine b := by
  unfold oneLine
  rw [String.data_append]
  simp only [List.mem_append, not_or]

theorem oneLine_foldl_sep (sep : String) (hsep : oneLine sep) (l : List String)
    (hl : ∀ s ∈ l, oneLine s) (acc : String) (hacc : oneLine acc) :
    oneLine (l.foldl (fun b s => b ++ sep ++ s) acc) := by
  induction l generalizing acc with
  | nil => exact hacc
  | cons a as ih =>
    rw [List.foldl_cons]
    apply ih (fun s hs => hl s (List.mem_cons_of_mem _ hs))
    rw [oneLine_append, oneLine_append]
    exact ⟨⟨hacc, hsep⟩, hl a (List.mem_cons_self _ _)⟩

theorem oneLine_join (sep : String) (hsep : oneLine sep) (l : List String)
    (hl : ∀ s ∈ l, oneLine s) : oneLine (join l sep) := by
  cases l with
  | nil =>
    show '\n' ∉ "".data
    decide
  | cons e es =>
    exact oneLine_foldl_sep sep hsep es (fun s hs => hl s (List.mem_cons_of_mem _ hs)) e
      (hl e (List.mem_cons_self _ _))

theorem oneLine_certSummary (cert : Certificate) (hcn : oneLine cert.CommonName)
    (horg : ∀ o ∈ cert.Organization, oneLine o) : oneLine (certSummary cert) := by
  rw [certSummary_eq]
  apply oneLine_join _ (by unfold oneLine; decide)
  intro s hs
  rw [List.mem_append, List.mem_map, List.mem_singleton] at hs
  rcases hs with ⟨o, ho, rfl⟩ | rfl
  · rw [oneLine_append]
    exact ⟨by unfold oneLine; decide, horg o ho⟩
  · rw [oneLine_append]
    exact ⟨by unfold oneLine; decide, hcn⟩

theorem oneLine_dialAddress (host : String) (h : oneLine host) : oneLine (dialAddress host) := by
  unfold dialAddress
  split
  · rw [oneLine_append]
    exact ⟨h, by unfold oneLine; decide⟩
  · exact h

theorem concatLines_append (a b : List String) :
    concatLines (a ++ b) = concatLines a ++ concatLines b := by
  induction a with
  | nil => simp [concatLines]
  | cons x xs ih => simp [concatLines, ih, String.append_assoc]

theorem lineCount_concatLines (ls : List String) (h : ∀ l ∈ ls, oneLine l) :
    lineCount (concatLines ls) = ls.length := by
  induction ls with
  | nil => rfl
  | cons l ls ih =>
    have hl : List.count '\n' l.data = 0 :=
      List.count_eq_zero.mpr (h l (List.mem_cons_self _ _))
    have hr := ih (fun x hx => h x (List.mem_cons_of_mem _ hx))
    have hn : List.count '\n' "\n".data = 1 := by decide
    unfold lineCount at hr ⊢
    rw [concatLines, String.data_append, String.data_append, List.count_append,
      List.count_append, hl, hr, hn, List.length_cons]
    omega

theorem written_expired_loop (g : Certificate → String) (certs : List Certificate) :
    written (certs.flatMap (fun cert => [Action.write (g cert ++ "\n"), Action.incr])) =
      concatLines (certs.map g) := by
  induction certs with
  | nil => rfl
  | cons c cs ih =>
    rw [List.flatMap_cons, written_append, ih]
    simp [written, concatLines, String.append_assoc]

theorem written_quiet_loop (certs : List Certificate) :
    written (certs.flatMap (fun _ => ([] : List Action))) = "" := by
  induction certs with
  | nil => rfl
  | cons c cs ih =>
    rw [List.flatMap_cons, written_append, ih]
    rfl

theorem written_probe (format : Time → String) (t : Target) :
    written (probe false format t) = concatLines (reportLines format t) := by
  unfold probe reportLines
  cases hd : t.dial with
  | err msg =>
    simp [written, concatLines, String.append_assoc]
  | conn certs now =>
    simp only [checkIfCertsExpired_eq]
    by_cases h : (certs.filter (fun c => !inWindow now c)).length = 0
    · have hnil : certs.filter (fun c => !inWindow now c) = [] := List.length_eq_zero.mp h
      simp only [h, hnil, List.map_nil, concatLines]
      simp [written_append, written, written_quiet_loop]
    · have hx : ((certs.filter (fun c => !inWindow now c)).length != 0) = true := by
        simpa using h
      have hsplit : ∀ x : String, x ++ ")\n" = x ++ ")" ++ "\n" := by
        intro x
        rw [String.append_assoc]
        rfl
      simp only [hx, if_true, Bool.false_eq_true, if_false, List.nil_append, hsplit]
      exact written_expired_loop _ _

theorem length_reportLines (format : Time → String) (t : Target) :
    (reportLines format t).length = problemCount t := by
  unfold reportLines problemCount
  cases t.dial with
  | err msg => rfl
  | conn certs now =>
    simp only [List.length_map, ← not_inWindow_eq, List.countP_eq_length_filter]

theorem reportLines_shape (format : Time → String) (hfmt : ∀ x, oneLine (format x))
    (t : Target) (ht : cleanTarget t) :
    ∀ l ∈ reportLines format t,
      oneLine l ∧ ∃ rest, l = "[" ++ dialAddress t.host ++ "] " ++ rest := by
  obtain ⟨host, dial⟩ := t
  cases dial with
  | err msg =>
    obtain ⟨hh, hd⟩ := ht
    intro l hl
    simp only [reportLines, List.mem_singleton] at hl
    subst hl
    refine ⟨?_, msg, rfl⟩
    rw [oneLine_append, oneLine_append, oneLine_append]
    exact ⟨⟨⟨by unfold oneLine; decide, oneLine_dialAddress host hh⟩,
      by unfold oneLine; decide⟩, hd⟩
  | conn certs now =>
    intro l hl
    simp only [reportLines, List.mem_map, List.mem_filter] at hl
    obtain ⟨c, ⟨hc, hout⟩, rfl⟩ := hl
    have hw : ¬ (c.NotBefore < now ∧ now < c.NotAfter) := by
      intro h
      rw [(inWindow_iff now c).mpr h] at hout
      exact absurd hout (by decide)
    obtain ⟨hh, hcn, horg⟩ := ht c hc hw
    have hs := oneLine_certSummary c hcn horg
    refine ⟨?_, "cert of " ++ certSummary c ++ " has expired! (" ++ format c.NotBefore ++
      " - " ++ format c.NotAfter ++ ")", ?_⟩
    · simp only [oneLine_append]
      refine ⟨⟨⟨⟨⟨⟨⟨⟨?_, oneLine_dialAddress host hh⟩, ?_⟩, hs⟩, ?_⟩, hfmt _⟩, ?_⟩,
        hfmt _⟩, ?_⟩ <;> (unfold oneLine; decide)
    · have hk : ("] cert of " : String) = "] " ++ "cert of " := by decide
      rw [hk]
      simp only [String.append_assoc]

/-! ## Lemmas on the writes of a schedule -/

theorem get_set_other (l : List Thread) (i j : Nat) (x : Thread) (h : i ≠ j) :
    (l.set i x).get? j = l.get? j := by
  simp only [List.get?_eq_getElem?]
  exact List.getElem?_set_ne h

theorem todoOf_set_same (e : String) (c : Int) (ths : List Thread) (i : Nat) (th x : Thread)
    (h : ths.get? i = some th) :
    todoOf { stderr := e, code := c, threads := ths.set i x } i = x.todo := by
  simp only [todoOf, get_set_same ths i th x h]

theorem todoOf_set_other (e e2 : String) (c c2 : Int) (ths : List Thread) (i j : Nat)
    (x : Thread) (h : i ≠ j) :
    todoOf { stderr := e, code := c, threads := ths.set i x } j =
      todoOf { stderr := e2, code := c2, threads := ths } j := by
  simp only [todoOf, get_set_other ths i j x h]

theorem stepThread_stderr (m : Machine) (i : Nat) :
    (stepThread m i).stderr = m.stderr ++ concatAll ((logStep m i).map Prod.snd) := by
  unfold stepThread logStep
  cases h : m.threads.get? i with
  | none => simp [concatAll]
  | some th =>
    obtain ⟨todo, r⟩ := th
    cases todo with
    | nil => simp [concatAll]
    | cons a rest =>
      cases a <;> simp [concatAll]

theorem concatAll_append (a b : List String) :
    concatAll (a ++ b) = concatAll a ++ concatAll b := by
  induction a with
  | nil => simp [concatAll]
  | cons x xs ih => simp [concatAll, ih, String.append_assoc]

theorem runSchedule_stderr (s : List Nat) (m : Machine) :
    (runSchedule m s).stderr = m.stderr ++ concatAll ((log m s).map Prod.snd) := by
  induction s generalizing m with
  | nil => simp [runSchedule, log, concatAll]
  | cons i rest ih =>
    rw [runSchedule_cons, ih, stepThread_stderr, log, List.map_append, concatAll_append,
      String.append_assoc]

theorem stepThread_texts (m : Machine) (i j : Nat) :
    ((logStep m i).filter (fun e => decide (e.1 = j))).map Prod.snd ++
      texts (todoOf (stepThread m i) j) = texts (todoOf m j) := by
  obtain ⟨e, c, ths⟩ := m
  by_cases hij : i = j
  · subst hij
    unfold stepThread logStep
    cases h : ths.get? i with
    | none => simp
    | some th =>
      obtain ⟨todo, r⟩ := th
      cases todo with
      | nil => simp
      | cons a rest =>
        have ho : todoOf ⟨e, c, ths⟩ i = a :: rest := by simp only [todoOf, h]
        cases a <;> simp [todoOf_set_same _ _ ths i _ _ h, ho, texts]
  · unfold stepThread logStep
    cases h : ths.get? i with
    | none => simp
    | some th =>
      obtain ⟨todo, r⟩ := th
      cases todo with
      | nil => simp
      | cons a rest =>
        cases a <;> simp [hij, todoOf_set_other _ e _ c ths i j _ hij]

theorem runSchedule_texts (s : List Nat) (m : Machine) (j : Nat) :
    ((log m s).filter (fun e => decide (e.1 = j))).map Prod.snd ++
      texts (todoOf (runSchedule m s) j) = texts (todoOf m j) := by
  induction s generalizing m with
  | nil => simp [runSchedule, log]
  | cons i rest ih =>
    rw [runSchedule_cons, log, List.filter_append, List.map_append, List.append_assoc, ih,
      stepThread_texts]

theorem stepThread_length (m : Machine) (i : Nat) :
    (stepThread m i).threads.length = m.threads.length := by
  unfold stepThread
  cases h : m.threads.get? i with
  | none => rfl
  | some th =>
    obtain ⟨todo, r⟩ := th
    cases todo with
    | nil => rfl
    | cons a rest => cases a <;> simp

theorem logStep_id (m : Machine) (i : Nat) :
    ∀ e ∈ logStep m i, e.1 < m.threads.length := by
  intro e he
  cases h : m.threads.get? i with
  | none =>
    simp only [logStep, h] at he
    simp at he
  | some th =>
    have hi : i < m.threads.length := by
      rw [List.get?_eq_getElem?] at h
      exact (List.getElem?_eq_some_iff.mp h).1
    obtain ⟨todo, r⟩ := th
    cases todo with
    | nil =>
      simp only [logStep, h] at he
      simp at he
    | cons a rest =>
      cases a with
      | write s =>
        simp only [logStep, h, List.mem_singleton] at he
        rw [he]
        exact hi
      | load =>
        simp only [logStep, h] at he
        simp at he
      | store =>
        simp only [logStep, h] at he
        simp at he

theorem log_id (s : List Nat) (m : Machine) :
    ∀ e ∈ log m s, e.1 < m.threads.length := by
  induction s generalizing m with
  | nil => intro e he; simp [log] at he
  | cons i rest ih =>
    intro e he
    rw [log, List.mem_append] at he
    rcases he with h | h
    · exact logStep_id m i e h
    · have := ih (stepThread m i) e h
      rwa [stepThread_length] at this

theorem breaksLeft_set (threads : List Thread) (i : Nat) (th x : Thread)
    (h : threads.get? i = some th) :
    breaksLeft (threads.set i x) + breaks th.todo = breaksLeft threads + breaks x.todo := by
  induction threads generalizing i with
  | nil => simp at h
  | cons y ys ih =>
    cases i with
    | zero =>
      simp only [List.get?_cons_zero, Option.some.injEq] at h
      subst h
      simp only [breaksLeft, List.set_cons_zero, List.map_cons, List.sum_cons]
      omega
    | succ k =>
      simp only [List.get?_cons_succ] at h
      have := ih k h
      simp only [breaksLeft, List.set_cons_succ, List.map_cons, List.sum_cons] at this ⊢
      omega

theorem stepThread_breaks (m : Machine) (i : Nat) :
    lineCount (stepThread m i).stderr + breaksLeft (stepThread m i).threads =
      lineCount m.stderr + breaksLeft m.threads := by
  unfold stepThread
  cases h : m.threads.get? i with
  | none => rfl
  | some th =>
    obtain ⟨todo, r⟩ := th
    have hs := fun x => breaksLeft_set m.threads i _ x h
    cases todo with
    | nil => rfl
    | cons a rest =>
      cases a with
      | write s =>
        have := hs { todo := rest, reg := r }
        simp only [breaks, lineCount, String.data_append, List.count_append] at this ⊢
        omega
      | load =>
        have := hs { todo := rest, reg := m.code }
        simp only [breaks] at this ⊢
        omega
      | store =>
        have := hs { todo := rest, reg := r }
        simp only [breaks] at this ⊢
        omega

theorem runSchedule_breaks (s : List Nat) (m : Machine) :
    lineCount (runSchedule m s).stderr + breaksLeft (runSchedule m s).threads =
      lineCount m.stderr + breaksLeft m.threads := by
  induction s generalizing m with
  | nil => rfl
  | cons i rest ih => rw [runSchedule_cons, ih, stepThread_breaks]

theorem allDone_todo (m : Machine) (h : allDone m = true) :
    ∀ th ∈ m.threads, th.todo = [] := by
  simpa [allDone, List.all_eq_true, List.isEmpty_iff] using h

theorem allDone_todoOf (m : Machine) (h : allDone m = true) (j : Nat) : todoOf m j = [] := by
  unfold todoOf
  cases hg : m.threads.get? j with
  | none => rfl
  | some th =>
    rw [List.get?_eq_getElem?] at hg
    exact allDone_todo m h th (List.mem_iff_getElem?.mpr ⟨j, hg⟩)

theorem allDone_breaksLeft (m : Machine) (h : allDone m = true) : breaksLeft m.threads = 0 := by
  unfold breaksLeft
  rw [List.sum_eq_zero_iff]
  intro n hn
  rw [List.mem_map] at hn
  obtain ⟨th, ht, rfl⟩ := hn
  rw [allDone_todo m h th ht]
  rfl

theorem texts_append (a b : List Micro) : texts (a ++ b) = texts a ++ texts b := by
  induction a with
  | nil => rfl
  | cons x xs ih => cases x <;> simp [texts, ih]

theorem breaks_append (a b : List Micro) : breaks (a ++ b) = breaks a + breaks b := by
  induction a with
  | nil => simp [breaks]
  | cons x xs ih => cases x <;> simp [breaks, ih, Nat.add_assoc]

theorem writes_append (a b : List Action) : writes (a ++ b) = writes a ++ writes b := by
  induction a with
  | nil => rfl
  | cons x xs ih => cases x <;> simp [writes, ih]

theorem texts_micro (acts : List Action) : texts (acts.flatMap Action.micro) = writes acts := by
  induction acts with
  | nil => rfl
  | cons a rest ih =>
    rw [List.flatMap_cons, texts_append, ih]
    cases a <;> rfl

theorem breaks_micro (acts : List Action) :
    breaks (acts.flatMap Action.micro) = lineCount (written acts) := by
  induction acts with
  | nil => rfl
  | cons a rest ih =>
    rw [List.flatMap_cons, breaks_append, ih]
    cases a with
    | write s =>
      simp only [Action.micro, breaks, written, lineCount, String.data_append,
        List.count_append, Nat.add_zero]
    | incr =>
      simp only [Action.micro, breaks, written, Nat.zero_add]

theorem todoOf_spawn (isVerbose : Bool) (format : Time → String) (targets : List Target)
    (i : Nat) (t : Target) (h : targets.get? i = some t) :
    todoOf (spawn isVerbose format targets) i = (probe isVerbose format t).flatMap Action.micro
    := by
  simp only [todoOf, spawn, List.get?_eq_getElem?, List.getElem?_map] at h ⊢
  rw [h]
  rfl

theorem breaksLeft_spawn (format : Time → String) (hfmt : ∀ x, oneLine (format x))
    (targets : List Target) (hclean : ∀ t ∈ targets, cleanTarget t) :
    breaksLeft (spawn false format targets).threads = (targets.map problemCount).sum := by
  simp only [breaksLeft, spawn, List.map_map]
  congr 1
  apply List.map_congr_left
  intro t ht
  simp only [Function.comp, breaks_micro, written_probe]
  rw [lineCount_concatLines _ (fun l hl => (reportLines_shape format hfmt t (hclean t ht) l hl).1),
    length_reportLines]

theorem writes_expired_loop (g : Certificate → String) (certs : List Certificate) :
    writes (certs.flatMap (fun cert => [Action.write (g cert ++ "\n"), Action.incr])) =
      (certs.map g).map (fun l => l ++ "\n") := by
  induction certs with
  | nil => rfl
  | cons c cs ih =>
    rw [List.flatMap_cons, writes_append, ih]
    rfl

theorem writes_quiet_loop (certs : List Certificate) :
    writes (certs.flatMap (fun _ => ([] : List Action))) = [] := by
  induction certs with
  | nil => rfl
  | cons c cs ih => simpa [List.flatMap_cons] using ih

theorem writes_probe (format : Time → String) (t : Target) :
    writes (probe false format t) =
      match t.dial with
      | DialResult.err msg => ["[" ++ dialAddress t.host ++ "] ", msg ++ "\n"]
      | DialResult.conn _ _ => (reportLines format t).map (fun l => l ++ "\n") := by
  unfold probe reportLines
  cases hd : t.dial with
  | err msg => simp [writes]
  | conn certs now =>
    simp only [checkIfCertsExpired_eq]
    by_cases h : (certs.filter (fun c => !inWindow now c)).length = 0
    · have hnil : certs.filter (fun c => !inWindow now c) = [] := List.length_eq_zero.mp h
      simp only [h, hnil, List.map_nil]
      simp [writes_quiet_loop]
    · have hx : ((certs.filter (fun c => !inWindow now c)).length != 0) = true := by
        simpa using h
      have hsplit : ∀ x : String, x ++ ")\n" = x ++ ")" ++ "\n" := by
        intro x
        rw [String.append_assoc]
        rfl
      simp only [hx, if_true, Bool.false_eq_true, if_false, List.nil_append, hsplit]
      exact writes_expired_loop _ _

/-! ## Claim on the error stream -/

/-- C10, as stated, fails: with verbose off, a single target that connects and presents one
expired certificate whose common name holds a line break makes the probe write two lines for
one problem (exit code 1), and the second line does not begin with the bracketed address. -/
theorem C10_counterexample :
    (brokenName.map problemCount).sum = 1 ∧
    main false stamp brokenName [0, 0, 0] = some 1 ∧
    stderrOf false stamp brokenName [0, 0, 0] =
      "[h.test:443] cert of CN=a\nb has expired! (0 - 10)\n" ∧
    lineCount (stderrOf false stamp brokenName [0, 0, 0]) = 2 := by
  decide

/-- C10, amended: with verbose off, when no target, error description, organization entry or
common name holds a line break (and the time format produces none), then after every
interleaving of the goroutines that lets all of them finish the error stream is the
concatenation of the writes the goroutines made, only goroutines of targets wrote, and the
writes of each target's goroutine are, in order: for a failed connection the dialled address
in brackets and then the error description with the line break, for a retrieved chain one
whole line per certificate outside its window, beginning with the dialled address in
brackets; so the stream holds exactly one line break per problem. -/
theorem C10_reports (format : Time → String) (targets : List Target) (schedule : List Nat)
    (hfmt : ∀ x, oneLine (format x)) (hclean : ∀ t ∈ targets, cleanTarget t)
    (hdone : allDone (runSchedule (spawn false format targets) schedule) = true) :
    stderrOf false format targets schedule =
      concatAll ((log (spawn false format targets) schedule).map Prod.snd) ∧
    (∀ e ∈ log (spawn false format targets) schedule, e.1 < targets.length) ∧
    (∀ i t, targets.get? i = some t →
      ∃ ls : List String, ls.length = problemCount t ∧
        (∀ l ∈ ls, oneLine l ∧ ∃ rest, l = "[" ++ dialAddress t.host ++ "] " ++ rest) ∧
        ((log (spawn false format targets) schedule).filter
            (fun e => decide (e.1 = i))).map Prod.snd =
          match t.dial with
          | DialResult.err msg => ["[" ++ dialAddress t.host ++ "] ", msg ++ "\n"]
          | DialResult.conn _ _ => ls.map (fun l => l ++ "\n")) ∧
    lineCount (stderrOf false format targets schedule) = (targets.map problemCount).sum := by
  refine ⟨?_, ?_, ?_, ?_⟩
  · unfold stderrOf
    rw [runSchedule_stderr]
    simp [spawn]
  · intro e he
    have := log_id schedule (spawn false format targets) e he
    simpa [spawn] using this
  · intro i t hi
    have ht : t ∈ targets := by
      rw [List.get?_eq_getElem?] at hi
      exact List.mem_iff_getElem?.mpr ⟨i, hi⟩
    refine ⟨reportLines format t, length_reportLines format t,
      reportLines_shape format hfmt t (hclean t ht), ?_⟩
    have h := runSchedule_texts schedule (spawn false format targets) i
    rw [allDone_todoOf _ hdone, todoOf_spawn false format targets i t hi, texts_micro] at h
    simp only [texts, List.append_nil] at h
    rw [h]
    exact writes_probe format t
  · have h := runSchedule_breaks schedule (spawn false format targets)
    rw [allDone_breaksLeft _ hdone, breaksLeft_spawn format hfmt targets hclean] at h
    unfold stderrOf
    have h0 : lineCount (spawn false format targets).stderr = 0 := rfl
    omega

/-- The scenario of the specification with verbose off, the third target's line written
between the two writes of the second target's failure line. -/
theorem C10_reports_witness :
    stderrOf false stamp scenario scenarioMixed =
      "[b.test:443] [c.test:8443] cert of CN=old.test has expired! (0 - 10)\n" ++
        "connection refused\n" ∧
    lineCount (stderrOf false stamp scenario scenarioMixed) = 2 := by
  have h := C10_reports stamp scenario scenarioMixed stamp_oneLine (by
    intro t ht
    simp only [scenario, List.mem_cons, List.mem_singleton, List.not_mem_nil, or_false] at ht
    rcases ht with rfl | rfl | rfl
    · intro c hc _
      simp only [List.mem_singleton] at hc
      subst hc
      exact ⟨by unfold oneLine; decide, by unfold oneLine; decide, by simp⟩
    · exact ⟨by unfold oneLine; decide, by unfold oneLine; decide⟩
    · intro c hc _
      simp only [List.mem_cons, List.mem_singleton, List.not_mem_nil, or_false] at hc
      rcases hc with rfl | rfl
      · refine ⟨by unfold oneLine; decide, by unfold oneLine; decide, ?_⟩
        intro o ho
        simp only [List.mem_singleton] at ho
        subst ho
        unfold oneLine; decide
      · exact ⟨by unfold oneLine; decide, by unfold oneLine; decide, by simp⟩) (by decide)
  exact ⟨by decide, h.2.2.2⟩

end Certexpchk
